import Mathlib

/-!
A verification development for the `mini-webpack` bundler
(`src/mini-webpack/index.js`).

The JavaScript core is embedded shallowly:

* the file system is an association list from path to file, and the
  external parser collaborator (`@babel/parser` + `@babel/traverse`) is
  modelled by attaching to each file the ordered list of import
  specifiers its parse yields;
* the process-wide mutable counter `let id = 0` is threaded explicitly
  as a `Nat` argument and result;
* fallible operations (`fs.readFileSync`, the whole build) return
  `Except BuildErr`;
* the `for (let i = 0, len = queue.length; i < len; i++)` loop of
  `createGraph` is embedded with its bound captured once, before the
  first iteration, exactly as the source does — pushes performed inside
  the loop body never extend the iteration range.
-/

set_option autoImplicit false

namespace MiniWebpack

/-- A source file as seen through the external parser collaborator: its
raw text together with the ordered list of import specifiers that parsing
the text yields (duplicates and order preserved). -/
structure SrcFile where
  source : String
  imports : List String
deriving Repr, DecidableEq

/-- The file system: an association list from path to file. -/
abbrev FS := List (String × SrcFile)

/-- Association-list read, first binding wins: models `fs.readFileSync`
(returning `none` where the JavaScript call would throw) and JavaScript
object property lookup. -/
def mapGet {β : Type} : List (String × β) → String → Option β
  | [], _ => none
  | (k', v) :: rest, k => if k' = k then some v else mapGet rest k

/-- JavaScript object property assignment `obj[k] = v`: overwrites an
existing binding in place, otherwise appends a new binding. -/
def mapSet {β : Type} : List (String × β) → String → β → List (String × β)
  | [], k, v => [(k, v)]
  | (k', v') :: rest, k, v =>
      if k' = k then (k, v) :: rest else (k', v') :: mapSet rest k v

/-- The errors the build can surface: a failed file read (the path is the
one passed to `fs.readFileSync`) and the `"entry Cannot be empty"` check
of `build`. -/
inductive BuildErr where
  | readError (path : String)
  | configError
deriving Repr, DecidableEq

/-- babel-core's `transformFromAst` with the `env` preset, modelled as a
pure function of the source text.  The bundler treats the transformed
code as opaque text, so the model keeps the text unchanged. -/
def transformFromAst (source : String) : String := source

/-- Node's `path.resolve(base, rel)` for the shapes the bundler
exercises: a relative specifier is joined under `base`, normalizing a
leading `./`. -/
def pathResolve (base rel : String) : String :=
  match rel.data with
  | '.' :: '/' :: rest => base ++ "/" ++ String.mk rest
  | _ => base ++ "/" ++ rel

/-- The resolution `createGraph` applies to every specifier:
`path.resolve('./example', relativePath)`.  The base is the fixed string
`'./example'`; the importing file's own path is not an argument. -/
def resolveDep (relativePath : String) : String :=
  pathResolve "./example" relativePath

/-- The record `createAsset` returns: file path, transformed code,
raw import specifiers, the id drawn from the global counter, and the
specifier-to-id mapping, empty at creation and filled by `createGraph`. -/
structure Asset where
  filePath : String
  code : String
  deps : List String
  id : Nat
  mapping : List (String × Nat)
deriving Repr, DecidableEq

/-- `createAsset(filePath)` with the global counter threaded: read the
file (a missing or unreadable file is `readError`), extract the imports,
transform the code, return the asset with `id = counter` together with
the incremented counter (`id: id++`). -/
def createAsset (fs : FS) (filePath : String) (c : Nat) :
    Except BuildErr (Asset × Nat) :=
  match mapGet fs filePath with
  | none => .error (.readError filePath)
  | some f =>
      .ok ({ filePath := filePath, code := transformFromAst f.source,
             deps := f.imports, id := c, mapping := [] }, c + 1)

/-- The body of `queue[i].deps.forEach(relativePath => ...)`: process the
specifiers in order; a falsy (empty) specifier is skipped; otherwise the
child is extracted at `path.resolve('./example', relativePath)`,
`queue[i].mapping[relativePath] = childAsset.id` is recorded (overwrite
semantics of `mapSet`), and the child is pushed onto the queue. -/
def processDeps (fs : FS) :
    List String → List (String × Nat) → List Asset → Nat →
    Except BuildErr (List (String × Nat) × List Asset × Nat)
  | [], mapping, queue, c => .ok (mapping, queue, c)
  | relativePath :: rest, mapping, queue, c =>
      if relativePath = "" then processDeps fs rest mapping queue c
      else
        match createAsset fs (resolveDep relativePath) c with
        | .error e => .error e
        | .ok (childAsset, c1) =>
            processDeps fs rest (mapSet mapping relativePath childAsset.id)
              (queue ++ [childAsset]) c1

/-- The loop `for (let i = 0, len = queue.length; i < len; i++)` of
`createGraph`.  The first argument is the number of iterations that
remain, `len - i`; since `len` is read once before the loop starts, this
count is fixed by the initial queue length and is not extended by pushes
performed inside the loop body.  Each iteration processes `queue[i].deps`
and stores the updated mapping back at index `i`. -/
def graphLoop (fs : FS) :
    Nat → List Asset → Nat → Nat → Except BuildErr (List Asset × Nat)
  | 0, queue, _, c => .ok (queue, c)
  | rem + 1, queue, i, c =>
      match queue[i]? with
      | none => .ok (queue, c)
      | some asset =>
          match processDeps fs asset.deps asset.mapping queue c with
          | .error e => .error e
          | .ok (m', q', c') =>
              graphLoop fs rem (q'.set i { asset with mapping := m' }) (i + 1) c'

/-- `createGraph(entry)`: extract the entry asset, seed the queue with
it, run the loop with the bound captured from the initial queue length
(`len = queue.length`, i.e. `1`), and return the final queue together
with the counter. -/
def createGraph (fs : FS) (entry : String) (c : Nat) :
    Except BuildErr (List Asset × Nat) :=
  match createAsset fs entry c with
  | .error e => .error e
  | .ok (mainAsset, c1) =>
      let queue := [mainAsset]
      graphLoop fs queue.length queue 0 c1

/-- The per-asset projection `({ filePath, code, mapping, id })` that
`build` hands to the template. -/
structure ModuleData where
  filePath : String
  code : String
  mapping : List (String × Nat)
  id : Nat
deriving Repr, DecidableEq

/-- Serialization of one mapping object inside the rendered bundle. -/
def renderMapping : List (String × Nat) → String
  | [] => ""
  | (k, v) :: rest => k ++ ":" ++ toString v ++ "," ++ renderMapping rest

/-- `ejs.render(template, { data })`, modelled as a concrete pure
function of the template text and the data list, as the spec directs
("treated as a pure function: table → text"). -/
def ejsRender (template : String) (data : List ModuleData) : String :=
  template ++ String.join (data.map fun d =>
    d.filePath ++ "|" ++ d.code ++ "|" ++ renderMapping d.mapping ++ "|" ++
      toString d.id ++ ";")

/-- The `output` part of the build options. -/
structure Output where
  path : String
  filename : String
deriving Repr, DecidableEq

/-- Build options.  A missing `entry` in the JavaScript config is the
empty (falsy) string here. -/
structure Options where
  entry : String
  output : Output
deriving Repr, DecidableEq

/-- `build(options)` with the counter threaded: check `entry` (a falsy
entry throws before anything else), read the template `./bundle.ejs`,
build the graph, project each asset to `ModuleData`, render, and return
the output path `output.path ++ "/" ++ output.filename` with the bundle
text.  The write itself is applied by `runAndWrite`. -/
def build (fs : FS) (options : Options) (c : Nat) :
    Except BuildErr ((String × String) × Nat) :=
  if options.entry = "" then .error .configError
  else
    match mapGet fs "./bundle.ejs" with
    | none => .error (.readError "./bundle.ejs")
    | some template =>
        match createGraph fs options.entry c with
        | .error e => .error e
        | .ok (graph, c') =>
            let data := graph.map fun asset =>
              { filePath := asset.filePath, code := asset.code,
                mapping := asset.mapping, id := asset.id : ModuleData }
            let code := ejsRender template.source data
            .ok ((options.output.path ++ "/" ++ options.output.filename, code), c')

/-- `fs.writeFileSync` applied to the build result: on success the
bundle text is written at the output path (overwriting any previous
file), on failure the error propagates uncaught and the disk is
untouched — in the source the single write is the last statement of
`build`, after every read. -/
def runAndWrite (fs : FS) (options : Options) (c : Nat)
    (disk : List (String × String)) : List (String × String) :=
  match build fs options c with
  | .error _ => disk
  | .ok ((p, code), _) => mapSet disk p code

/-- One program run: at module load `let id = 0` initializes the
counter, then `init()` calls `build(options)`; so every independent
build (one per process lifetime) starts from counter `0`. -/
def runProgram (fs : FS) (options : Options) :
    Except BuildErr ((String × String) × Nat) :=
  build fs options 0

/-! ### Concrete scenario file systems -/

/-- Linear chain: the entry `a.js` imports `./b.js`, `b.js` imports
`./c.js`, `c.js` has no imports. -/
def chainFS : FS :=
  [("a.js", { source := "", imports := ["./b.js"] }),
   ("./example/b.js", { source := "", imports := ["./c.js"] }),
   ("./example/c.js", { source := "", imports := [] })]

/-- Repeated import: the entry `a.js` imports `./b.js` twice. -/
def repFS : FS :=
  [("a.js", { source := "", imports := ["./b.js", "./b.js"] }),
   ("./example/b.js", { source := "", imports := [] })]

/-- Duplicate import below the root: the entry `a.js` imports `./b.js`,
and `b.js` imports `./c.js` twice. -/
def dupBelowRootFS : FS :=
  [("a.js", { source := "", imports := ["./b.js"] }),
   ("./example/b.js", { source := "", imports := ["./c.js", "./c.js"] }),
   ("./example/c.js", { source := "", imports := [] })]

/-- A one-file project with a template, used to instantiate theorems. -/
def soloFS : FS :=
  [("a.js", { source := "", imports := [] }),
   ("./bundle.ejs", { source := "T", imports := [] })]

/-- An entry whose imports contain an empty (falsy) specifier. -/
def emptyDepFS : FS :=
  [("a.js", { source := "", imports := ["", "./b.js"] }),
   ("./example/b.js", { source := "", imports := [] })]

/-- An entry importing a file that does not exist. -/
def missFS : FS :=
  [("a.js", { source := "", imports := ["./missing.js"] }),
   ("./bundle.ejs", { source := "T", imports := [] })]

/-- What `createGraph` actually returns on `chainFS`: only the entry and
its direct dependency; `c.js` is never extracted and `b`'s mapping stays
empty, because the loop bound was captured as the initial queue length. -/
def chainGraph : List Asset :=
  [{ filePath := "a.js", code := "", deps := ["./b.js"], id := 0,
     mapping := [("./b.js", 1)] },
   { filePath := "./example/b.js", code := "", deps := ["./c.js"], id := 1,
     mapping := [] }]

/-- The asset extracted for `b.js` in the linear-chain run. -/
def chainB : Asset :=
  { filePath := "./example/b.js", code := "", deps := ["./c.js"], id := 1,
    mapping := [] }

/-- What `createGraph` returns on `repFS`: the entry plus one distinct
asset per occurrence of `./b.js`, with the mapping holding the id of the
last occurrence's child. -/
def repGraph : List Asset :=
  [{ filePath := "a.js", code := "", deps := ["./b.js", "./b.js"], id := 0,
     mapping := [("./b.js", 2)] },
   { filePath := "./example/b.js", code := "", deps := [], id := 1, mapping := [] },
   { filePath := "./example/b.js", code := "", deps := [], id := 2, mapping := [] }]

/-- What `createGraph` returns on `dupBelowRootFS`: the loop never
processes `b`'s deps, so no asset is created for `./c.js` at all. -/
def dupGraph : List Asset :=
  [{ filePath := "a.js", code := "", deps := ["./b.js"], id := 0,
     mapping := [("./b.js", 1)] },
   { filePath := "./example/b.js", code := "", deps := ["./c.js", "./c.js"], id := 1,
     mapping := [] }]

/-! ### Derived descriptions of one loop iteration

These functions restate, denotationally, what the loop body does to the
queue, the counter and the mapping while it runs over one deps list;
`processDeps_ok_spec` below proves the correspondence. -/

/-- Number of non-empty specifiers in a deps list — each consumes
exactly one id. -/
def nzLen : List String → Nat
  | [] => 0
  | d :: rest => if d = "" then nzLen rest else nzLen rest + 1

/-- The ids `c, c + 1, ..., c + n - 1`. -/
def idRange : Nat → Nat → List Nat
  | _, 0 => []
  | c, n + 1 => c :: idRange (c + 1) n

/-- The resolved paths of the non-empty specifiers, in order, duplicates
preserved. -/
def resolvedDeps : List String → List String
  | [] => []
  | d :: rest =>
      if d = "" then resolvedDeps rest else resolveDep d :: resolvedDeps rest

/-- The children the loop body pushes while processing a deps list with
the counter starting at `c` (cut short at a missing file, where the real
run errors instead). -/
def childAssets (fs : FS) : List String → Nat → List Asset
  | [], _ => []
  | d :: rest, c =>
      if d = "" then childAssets fs rest c
      else
        match mapGet fs (resolveDep d) with
        | none => []
        | some f =>
            { filePath := resolveDep d, code := transformFromAst f.source,
              deps := f.imports, id := c, mapping := [] } ::
              childAssets fs rest (c + 1)

/-- The id assigned at the last non-empty occurrence of `k` in a deps
list when the counter starts at `c` — the value `mapping[k]` ends with,
since later assignments overwrite earlier ones. -/
def lastAssign (k : String) : List String → Nat → Option Nat
  | [], _ => none
  | d :: rest, c =>
      if d = "" then lastAssign k rest c
      else
        match lastAssign k rest (c + 1) with
        | some v => some v
        | none => if d = k then some c else none

/-- Options used to instantiate hypothesized theorems. -/
def soloOptions : Options :=
  { entry := "a.js", output := { path := "dist", filename := "bundle.js" } }

/-- The successful result of `runProgram soloFS soloOptions`. -/
def soloRun : (String × String) × Nat := (("dist/bundle.js", "Ta.js|||0;"), 1)

/-- The single asset `createGraph soloFS "a.js" 0` produces. -/
def soloAsset : Asset :=
  { filePath := "a.js", code := "", deps := [], id := 0, mapping := [] }

/-- What `createGraph` returns on `emptyDepFS`: the empty specifier is
skipped without consuming an id, the non-empty one becomes id 1. -/
def emptyDepGraph : List Asset :=
  [{ filePath := "a.js", code := "", deps := ["", "./b.js"], id := 0,
     mapping := [("./b.js", 1)] },
   { filePath := "./example/b.js", code := "", deps := [], id := 1, mapping := [] }]

/-! ### Toolkit lemmas -/

theorem mapGet_mapSet {β : Type} (m : List (String × β)) (a k : String) (v : β) :
    mapGet (mapSet m a v) k = if a = k then some v else mapGet m k := by
  induction m with
  | nil => simp [mapSet, mapGet]
  | cons p rest ih =>
      obtain ⟨k', v'⟩ := p
      by_cases h1 : k' = a
      · subst h1
        by_cases h2 : k' = k <;> simp [mapSet, mapGet, h2]
      · by_cases h2 : k' = k
        · subst h2
          have ha : ¬a = k' := fun h => h1 h.symm
          simp [mapSet, mapGet, h1, ha]
        · simp [mapSet, mapGet, h1, h2, ih]

theorem nzLen_append (l₁ l₂ : List String) :
    nzLen (l₁ ++ l₂) = nzLen l₁ + nzLen l₂ := by
  induction l₁ with
  | nil => simp [nzLen]
  | cons d rest ih =>
      by_cases h : d = ""
      · simp [nzLen, h, ih]
      · simp [nzLen, h, ih]; omega

theorem idRange_length (c n : Nat) : (idRange c n).length = n := by
  induction n generalizing c with
  | zero => rfl
  | succ n ih => simp [idRange, ih]

theorem idRange_shift (c n : Nat) :
    idRange (c + 1) n = (idRange c n).map Nat.succ := by
  induction n generalizing c with
  | zero => rfl
  | succ n ih => simp [idRange, ih]

theorem idRange_zero_eq_range (n : Nat) : idRange 0 n = List.range n := by
  induction n with
  | zero => rfl
  | succ n ih => rw [List.range_succ_eq_map, idRange, idRange_shift, ih]

theorem childAssets_map_filePath {fs : FS} :
    ∀ (l : List String) (c : Nat),
      (∀ d ∈ l, d ≠ "" → ∃ e, mapGet fs (resolveDep d) = some e) →
      (childAssets fs l c).map (fun a => a.filePath) = resolvedDeps l := by
  intro l
  induction l with
  | nil => intro c _; rfl
  | cons d rest ih =>
      intro c hp
      by_cases hd : d = ""
      · simpa [childAssets, resolvedDeps, hd] using
          ih c fun d' hd' => hp d' (List.mem_cons_of_mem _ hd')
      · obtain ⟨e, he⟩ := hp d (List.mem_cons_self _ _) hd
        simpa [childAssets, resolvedDeps, hd, he] using
          ih (c + 1) fun d' hd' => hp d' (List.mem_cons_of_mem _ hd')

theorem childAssets_map_id {fs : FS} :
    ∀ (l : List String) (c : Nat),
      (∀ d ∈ l, d ≠ "" → ∃ e, mapGet fs (resolveDep d) = some e) →
      (childAssets fs l c).map (fun a => a.id) = idRange c (nzLen l) := by
  intro l
  induction l with
  | nil => intro c _; rfl
  | cons d rest ih =>
      intro c hp
      by_cases hd : d = ""
      · simpa [childAssets, nzLen, hd] using
          ih c fun d' hd' => hp d' (List.mem_cons_of_mem _ hd')
      · obtain ⟨e, he⟩ := hp d (List.mem_cons_self _ _) hd
        simpa [childAssets, nzLen, hd, he, idRange] using
          ih (c + 1) fun d' hd' => hp d' (List.mem_cons_of_mem _ hd')

theorem childAssets_length {fs : FS} (l : List String) (c : Nat)
    (hp : ∀ d ∈ l, d ≠ "" → ∃ e, mapGet fs (resolveDep d) = some e) :
    (childAssets fs l c).length = nzLen l := by
  have h := @childAssets_map_id fs l c hp
  have := congrArg List.length h
  simpa [idRange_length] using this

theorem graphLoop_zero (fs : FS) (q : List Asset) (i c : Nat) :
    graphLoop fs 0 q i c = .ok (q, c) := rfl

theorem graphLoop_one (fs : FS) (q : List Asset) (i c : Nat) :
    graphLoop fs 1 q i c =
      match q[i]? with
      | none => .ok (q, c)
      | some asset =>
          match processDeps fs asset.deps asset.mapping q c with
          | .error e => .error e
          | .ok (m', q', c') => .ok (q'.set i { asset with mapping := m' }, c') := by
  cases hq : q[i]? with
  | none => simp [graphLoop, hq]
  | some asset =>
      cases hpd : processDeps fs asset.deps asset.mapping q c with
      | error e => simp [graphLoop, hq, hpd]
      | ok r =>
          obtain ⟨m', q', c'⟩ := r
          simp [graphLoop, hq, hpd]

/-- Master description of one pass of the loop body over a deps list:
on success the queue got exactly `childAssets` appended, the counter
advanced by the number of non-empty specifiers, every non-empty
specifier resolved to a readable file, and every mapping key ends at the
value assigned by its last non-empty occurrence. -/
theorem processDeps_ok_spec (fs : FS) :
    ∀ (l : List String) (m : List (String × Nat)) (q : List Asset) (c : Nat)
      {m' : List (String × Nat)} {q' : List Asset} {c' : Nat},
      processDeps fs l m q c = .ok (m', q', c') →
      q' = q ++ childAssets fs l c ∧
      c' = c + nzLen l ∧
      (∀ d ∈ l, d ≠ "" → ∃ e, mapGet fs (resolveDep d) = some e) ∧
      (∀ k, mapGet m' k =
        match lastAssign k l c with
        | some v => some v
        | none => mapGet m k) := by
  intro l
  induction l with
  | nil =>
      intro m q c m' q' c' h
      simp only [processDeps, Except.ok.injEq, Prod.mk.injEq] at h
      obtain ⟨hm, hq, hc⟩ := h
      subst hm; subst hq; subst hc
      simp [childAssets, nzLen, lastAssign]
  | cons d rest ih =>
      intro m q c m' q' c' h
      by_cases hd : d = ""
      · rw [processDeps, if_pos hd] at h
        obtain ⟨hq, hc, hp, hm⟩ := ih m q c h
        refine ⟨?_, ?_, ?_, ?_⟩
        · simpa [childAssets, hd] using hq
        · simpa [nzLen, hd] using hc
        · intro d' hd' hne
          rcases List.mem_cons.mp hd' with h' | h'
          · exact absurd (h' ▸ hd) hne
          · exact hp d' h' hne
        · intro k
          simpa [lastAssign, hd] using hm k
      · rw [processDeps, if_neg hd] at h
        cases hf : mapGet fs (resolveDep d) with
        | none => rw [createAsset, hf] at h; cases h
        | some f =>
            rw [createAsset, hf] at h
            obtain ⟨hq, hc, hp, hm⟩ := ih _ _ _ h
            refine ⟨?_, ?_, ?_, ?_⟩
            · rw [hq, childAssets, if_neg hd, hf, List.append_assoc]
              rfl
            · rw [hc, nzLen, if_neg hd]; omega
            · intro d' hd' hne
              rcases List.mem_cons.mp hd' with h' | h'
              · exact ⟨f, h' ▸ hf⟩
              · exact hp d' h' hne
            · intro k
              have hk := hm k
              rw [lastAssign, if_neg hd]
              cases hl : lastAssign k rest (c + 1) with
              | some v => rw [hl] at hk; simpa using hk
              | none =>
                  rw [hl] at hk
                  simp only at hk
                  rw [mapGet_mapSet] at hk
                  by_cases hdk : d = k
                  · simpa [hdk] using hk
                  · simpa [hdk] using hk

/-- On success, `createGraph` returns the entry asset (with its mapping
filled in) followed by the children pushed while its deps were
processed; nothing else is ever processed because the loop bound was
captured as the initial queue length. -/
theorem createGraph_ok_spec {fs : FS} {entry : String} {c : Nat}
    {g : List Asset} {cf : Nat}
    (h : createGraph fs entry c = .ok (g, cf)) :
    ∃ f m',
      mapGet fs entry = some f ∧
      g = { filePath := entry, code := transformFromAst f.source,
            deps := f.imports, id := c,
            mapping := m' } :: childAssets fs f.imports (c + 1) ∧
      cf = c + 1 + nzLen f.imports ∧
      (∀ d ∈ f.imports, d ≠ "" → ∃ e, mapGet fs (resolveDep d) = some e) ∧
      (∀ k, mapGet m' k =
        match lastAssign k f.imports (c + 1) with
        | some v => some v
        | none => none) := by
  rw [createGraph] at h
  cases hf : mapGet fs entry with
  | none => rw [createAsset, hf] at h; cases h
  | some f =>
      rw [createAsset, hf] at h
      simp only [List.length_singleton] at h
      rw [graphLoop_one] at h
      simp only [List.getElem?_cons_zero] at h
      cases hpd : processDeps fs f.imports ([] : List (String × Nat))
          [{ filePath := entry, code := transformFromAst f.source,
             deps := f.imports, id := c, mapping := [] }] (c + 1) with
      | error e => simp [hpd] at h
      | ok r =>
          obtain ⟨m', q', c'⟩ := r
          rw [hpd] at h
          simp only [Except.ok.injEq, Prod.mk.injEq] at h
          obtain ⟨hg, hcf⟩ := h
          obtain ⟨hq, hc, hp, hm⟩ := processDeps_ok_spec fs _ _ _ _ hpd
          refine ⟨f, m', rfl, ?_, ?_, hp, fun k => ?_⟩
          · rw [← hg, hq]
            simp
          · rw [← hcf, hc]
          · simpa [mapGet] using hm k

/-! ### Claim theorems -/

/-- **C1** (code-bug evidence).  On the linear chain `a.js → b.js → c.js`
the claim (and the source's own comments, which describe exactly this
transitive scenario) promises 3 assets with `b`'s mapping pointing at
id 2; the code returns only 2 assets, never reads `c.js`, and leaves
`b`'s mapping empty, because `len = queue.length` is captured before the
first iteration, so the work queue is not processed to exhaustion. -/
theorem c1_linear_chain_two_assets :
    createGraph chainFS "a.js" 0 = .ok (chainGraph, 2) ∧
    chainGraph.length = 2 ∧
    ∀ a ∈ chainGraph, a.filePath ≠ "./example/c.js" :=
  ⟨rfl, rfl, by decide⟩

/-- **C2** (code-bug evidence).  The asset extracted for `b.js` is in the
returned graph and has the non-empty specifier `./c.js` in its `deps`,
yet after the build completes its mapping has no entry for it — the
mapping-totality invariant the claim states fails on the code. -/
theorem c2_unmapped_dep_in_graph :
    createGraph chainFS "a.js" 0 = .ok (chainGraph, 2) ∧
    chainB ∈ chainGraph ∧
    "./c.js" ∈ chainB.deps ∧ ("./c.js" : String) ≠ "" ∧
    mapGet chainB.mapping "./c.js" = none :=
  ⟨rfl, by decide, by decide, by decide, rfl⟩

/-- **C9** (confirmed).  When the entry imports `./b.js` twice, each
occurrence is independently re-extracted and appended: the graph has two
distinct assets (ids 1 and 2) with the same resolved path — no
path-based deduplication. -/
theorem c9_repeated_import_duplicates :
    createGraph repFS "a.js" 0 = .ok (repGraph, 3) ∧
    repGraph.map (fun a => a.id) = [0, 1, 2] ∧
    repGraph.map (fun a => a.filePath) =
      ["a.js", resolveDep "./b.js", resolveDep "./b.js"] :=
  ⟨rfl, rfl, by decide⟩

/-- **C10** (counterexample).  The claim quantifies over every asset in
the graph, but deps of non-entry assets are never processed: here `b`'s
deps contain `./c.js` twice, yet no child asset is created for either
occurrence — nothing in the graph has `c.js`'s resolved path. -/
theorem c10_counterexample :
    createGraph dupBelowRootFS "a.js" 0 = .ok (dupGraph, 2) ∧
    (∃ a ∈ dupGraph, a.deps = ["./c.js", "./c.js"]) ∧
    ∀ a ∈ dupGraph, a.filePath ≠ resolveDep "./c.js" :=
  ⟨rfl, by decide, by decide⟩

/-- **C7** (confirmed).  With an empty (falsy) entry, `build` fails with
the configuration error for every file system and counter — the result
does not depend on the file system at all, so no file read influences
it, and the disk is left untouched (no write happens). -/
theorem c7_empty_entry_config_error (fs : FS) (out : Output) (c : Nat)
    (disk : List (String × String)) :
    build fs { entry := "", output := out } c = .error .configError ∧
    runAndWrite fs { entry := "", output := out } c disk = disk := by
  constructor
  · simp [build]
  · simp [runAndWrite, build]

/-- **C4** (confirmed).  A program run starts from counter 0 (`let id = 0`
at module load; the source performs exactly one build per process), and
the build is a pure function of the file system, the options and that
counter: two runs on the same unchanged file set return the same bundle,
ids included. -/
theorem c4_build_deterministic (fs : FS) (options : Options)
    (r₁ r₂ : (String × String) × Nat)
    (h₁ : runProgram fs options = .ok r₁)
    (h₂ : runProgram fs options = .ok r₂) :
    r₁ = r₂ ∧ runProgram fs options = build fs options 0 := by
  refine ⟨?_, rfl⟩
  rw [h₁] at h₂
  exact Except.ok.inj h₂

/-- Witness for `c4_build_deterministic` at a concrete one-file project. -/
theorem c4_witness :
    soloRun = soloRun ∧ runProgram soloFS soloOptions = build soloFS soloOptions 0 :=
  c4_build_deterministic soloFS soloOptions soloRun soloRun (by rfl) (by rfl)

/-- **C3** (confirmed).  For every successful build (the counter starts
at 0 in a fresh process), the ids of the returned graph's assets are
exactly `0, 1, ..., N - 1` in order — a contiguous range with no gaps
and no duplicates. -/
theorem c3_ids_contiguous (fs : FS) (entry : String) (g : List Asset) (cf : Nat)
    (h : createGraph fs entry 0 = .ok (g, cf)) :
    g.map (fun a => a.id) = List.range g.length := by
  obtain ⟨f, m', hf, hg, hcf, hp, hm⟩ := createGraph_ok_spec h
  subst hg
  have hlen : (childAssets fs f.imports (0 + 1)).length = nzLen f.imports :=
    childAssets_length _ _ hp
  simp only [List.map_cons, List.length_cons, hlen]
  rw [childAssets_map_id _ _ hp, List.range_succ_eq_map, idRange_shift,
    idRange_zero_eq_range]

/-- Witness for `c3_ids_contiguous` on the one-file project. -/
theorem c3_witness :
    [soloAsset].map (fun a => a.id) = List.range [soloAsset].length :=
  c3_ids_contiguous soloFS "a.js" [soloAsset] 1 (by rfl)

/-- **C5** (confirmed).  The first element of every successfully built
graph has id 0 and is exactly the asset extracted from the entry file:
its path is the entry path, and its code and deps are the transform and
imports of the entry file's source. -/
theorem c5_root_is_entry (fs : FS) (entry : String) (g : List Asset) (cf : Nat)
    (h : createGraph fs entry 0 = .ok (g, cf)) :
    ∃ a rest f, g = a :: rest ∧ a.id = 0 ∧ a.filePath = entry ∧
      mapGet fs entry = some f ∧ a.code = transformFromAst f.source ∧
      a.deps = f.imports := by
  obtain ⟨f, m', hf, hg, -, -, -⟩ := createGraph_ok_spec h
  exact ⟨_, _, f, hg, rfl, rfl, hf, rfl, rfl⟩

/-- Witness for `c5_root_is_entry` on the one-file project. -/
theorem c5_witness :
    ∃ a rest f, [soloAsset] = a :: rest ∧ a.id = 0 ∧ a.filePath = "a.js" ∧
      mapGet soloFS "a.js" = some f ∧ a.code = transformFromAst f.source ∧
      a.deps = f.imports :=
  c5_root_is_entry soloFS "a.js" [soloAsset] 1 (by rfl)

/-- **C6** (confirmed).  Every specifier the traversal encounters is
resolved by `resolvedDeps`, i.e. mapped through the fixed-base function
`resolveDep = pathResolve "./example"` — the importing file's path is
not an argument of the resolution — and both the graph length and the
final counter are `1 +` the number of non-empty specifiers: an empty
(falsy) specifier produces no asset and consumes no id. -/
theorem c6_fixed_base_resolution (fs : FS) (entry : String) (g : List Asset)
    (cf : Nat) (f : SrcFile)
    (h : createGraph fs entry 0 = .ok (g, cf))
    (hf : mapGet fs entry = some f) :
    (g.drop 1).map (fun a => a.filePath) = resolvedDeps f.imports ∧
    g.length = 1 + nzLen f.imports ∧
    cf = 1 + nzLen f.imports := by
  obtain ⟨f', m', hf', hg, hcf, hp, hm⟩ := createGraph_ok_spec h
  rw [hf] at hf'
  obtain rfl : f = f' := Option.some.inj hf'
  subst hg
  have hlen : (childAssets fs f.imports (0 + 1)).length = nzLen f.imports :=
    childAssets_length _ _ hp
  refine ⟨?_, ?_, by omega⟩
  · simpa using childAssets_map_filePath f.imports (0 + 1) hp
  · simp [hlen]
    omega

/-- Witness for `c6_fixed_base_resolution` on the project whose entry
has one empty and one non-empty specifier. -/
theorem c6_witness :
    (emptyDepGraph.drop 1).map (fun a => a.filePath) =
      resolvedDeps ["", "./b.js"] ∧
    emptyDepGraph.length = 1 + nzLen ["", "./b.js"] ∧
    2 = 1 + nzLen ["", "./b.js"] :=
  c6_fixed_base_resolution emptyDepFS "a.js" emptyDepGraph 2
    { source := "", imports := ["", "./b.js"] } (by rfl) (by rfl)

/-- If a deps list contains a non-empty specifier resolving to a missing
file, processing it fails with a read error (for the first failing
read). -/
theorem processDeps_error_of_missing (fs : FS) :
    ∀ (l : List String) (m : List (String × Nat)) (q : List Asset) (c : Nat)
      (s : String), s ∈ l → s ≠ "" → mapGet fs (resolveDep s) = none →
      ∃ p, processDeps fs l m q c = .error (.readError p) := by
  intro l
  induction l with
  | nil => intro m q c s hs _ _; cases hs
  | cons d rest ih =>
      intro m q c s hs hne hmiss
      by_cases hd : d = ""
      · rcases List.mem_cons.mp hs with h' | h'
        · exact absurd (h'.trans hd) hne
        · obtain ⟨p, hp⟩ := ih m q c s h' hne hmiss
          exact ⟨p, by rw [processDeps, if_pos hd]; exact hp⟩
      · cases hf : mapGet fs (resolveDep d) with
        | none =>
            refine ⟨resolveDep d, ?_⟩
            rw [processDeps, if_neg hd, createAsset, hf]
        | some fd =>
            have hsr : s ∈ rest := by
              rcases List.mem_cons.mp hs with h' | h'
              · subst h'; rw [hmiss] at hf; cases hf
              · exact h'
            obtain ⟨p, hp⟩ := ih (mapSet m d c)
              (q ++ [{ filePath := resolveDep d,
                       code := transformFromAst fd.source,
                       deps := fd.imports, id := c, mapping := [] }])
              (c + 1) s hsr hne hmiss
            refine ⟨p, ?_⟩
            rw [processDeps, if_neg hd, createAsset, hf]
            exact hp

/-- **C8** (confirmed).  If any non-empty import specifier of the entry
file resolves to a missing (unreadable) file, the whole build is a read
error and the disk is untouched: no output file is written, so there is
never a partial bundle on failure. -/
theorem c8_missing_dep_aborts (fs : FS) (entry : String) (out : Output)
    (c : Nat) (disk : List (String × String)) (f : SrcFile) (s : String)
    (hentry : entry ≠ "") (hf : mapGet fs entry = some f)
    (hs : s ∈ f.imports) (hne : s ≠ "")
    (hmiss : mapGet fs (resolveDep s) = none) :
    (∃ p, build fs { entry := entry, output := out } c =
      .error (.readError p)) ∧
    runAndWrite fs { entry := entry, output := out } c disk = disk := by
  have hb : ∃ p, build fs { entry := entry, output := out } c =
      .error (.readError p) := by
    rw [build, if_neg hentry]
    cases ht : mapGet fs "./bundle.ejs" with
    | none => exact ⟨"./bundle.ejs", rfl⟩
    | some template =>
        have hcg : ∃ p, createGraph fs entry c = .error (.readError p) := by
          rw [createGraph, createAsset, hf]
          simp only [List.length_singleton]
          rw [graphLoop_one]
          simp only [List.getElem?_cons_zero]
          obtain ⟨p, hp⟩ := processDeps_error_of_missing fs f.imports []
            [{ filePath := entry, code := transformFromAst f.source,
               deps := f.imports, id := c, mapping := [] }] (c + 1) s hs hne hmiss
          exact ⟨p, by rw [hp]⟩
        obtain ⟨p, hp⟩ := hcg
        exact ⟨p, by rw [hp]⟩
  obtain ⟨p, hp⟩ := hb
  exact ⟨⟨p, hp⟩, by rw [runAndWrite, hp]⟩

/-- Witness for `c8_missing_dep_aborts`: an entry importing
`./missing.js`, which resolves to a path absent from the file system. -/
theorem c8_witness :
    (∃ p, build missFS
      { entry := "a.js", output := { path := "dist", filename := "bundle.js" } } 0 =
        .error (.readError p)) ∧
    runAndWrite missFS
      { entry := "a.js", output := { path := "dist", filename := "bundle.js" } } 0
      [] = [] :=
  c8_missing_dep_aborts missFS "a.js"
    { path := "dist", filename := "bundle.js" } 0 []
    { source := "", imports := ["./missing.js"] } "./missing.js"
    (by decide) (by rfl) (by decide) (by decide) (by rfl)

theorem lastAssign_none_cases (k : String) :
    ∀ (l : List String) (c : Nat), lastAssign k l c = none → k = "" ∨ k ∉ l := by
  intro l
  induction l with
  | nil => intro c _; exact Or.inr (List.not_mem_nil k)
  | cons d rest ih =>
      intro c h
      by_cases hd : d = ""
      · rw [lastAssign, if_pos hd] at h
        rcases ih c h with hk | hk
        · exact Or.inl hk
        · by_cases hkd : k = d
          · exact Or.inl (hkd.trans hd)
          · refine Or.inr fun hmem => ?_
            rcases List.mem_cons.mp hmem with h1 | h1
            · exact hkd h1
            · exact hk h1
      · cases hl : lastAssign k rest (c + 1) with
        | some v => simp [lastAssign, hd, hl] at h
        | none =>
            by_cases hdk : d = k
            · rw [hdk] at h hd
              simp [lastAssign, hd, hl] at h
            · rcases ih (c + 1) hl with hk | hk
              · exact Or.inl hk
              · refine Or.inr fun hmem => ?_
                rcases List.mem_cons.mp hmem with h1 | h1
                · exact hdk h1.symm
                · exact hk h1

theorem lastAssign_none_of_not_mem (k : String) :
    ∀ (l : List String) (c : Nat), k ∉ l → lastAssign k l c = none := by
  intro l
  induction l with
  | nil => intro c _; rfl
  | cons d rest ih =>
      intro c hk
      have hkr : k ∉ rest := fun hh => hk (List.mem_cons_of_mem _ hh)
      have hkd : k ≠ d := fun hh => hk (hh ▸ List.mem_cons_self _ _)
      by_cases hd : d = ""
      · rw [lastAssign, if_pos hd]
        exact ih c hkr
      · rw [lastAssign, if_neg hd, ih (c + 1) hkr]
        simp [Ne.symm hkd]

theorem lastAssign_last (s : String) (hne : s ≠ "") :
    ∀ (l₁ l₂ : List String) (c : Nat), s ∉ l₂ →
      lastAssign s (l₁ ++ s :: l₂) c = some (c + nzLen l₁) := by
  intro l₁
  induction l₁ with
  | nil =>
      intro l₂ c hnot
      rw [List.nil_append, lastAssign, if_neg hne,
        lastAssign_none_of_not_mem s l₂ (c + 1) hnot]
      simp [nzLen]
  | cons d l₁ ih =>
      intro l₂ c hnot
      by_cases hd : d = ""
      · rw [List.cons_append, lastAssign, if_pos hd, ih l₂ c hnot]
        simp [nzLen, hd]
      · rw [List.cons_append, lastAssign, if_neg hd, ih l₂ (c + 1) hnot]
        simp only [nzLen, if_neg hd, Option.some.injEq]
        omega

theorem lastAssign_some_split (k : String) :
    ∀ (l : List String) (c v : Nat), lastAssign k l c = some v →
      k ≠ "" ∧ ∃ t r, l = t ++ k :: r ∧ k ∉ r ∧ v = c + nzLen t := by
  intro l
  induction l with
  | nil => intro c v h; cases h
  | cons d rest ih =>
      intro c v h
      by_cases hd : d = ""
      · rw [lastAssign, if_pos hd] at h
        obtain ⟨hne, t, r, hsplit, hnot, hv⟩ := ih c v h
        exact ⟨hne, d :: t, r, by rw [hsplit, List.cons_append], hnot,
          by simp [nzLen, hd, hv]⟩
      · cases hl : lastAssign k rest (c + 1) with
        | some v' =>
            have hvv : v' = v := by
              simp [lastAssign, hd, hl] at h
              exact h
            obtain ⟨hne, t, r, hsplit, hnot, hv⟩ := ih (c + 1) v' hl
            refine ⟨hne, d :: t, r, by rw [hsplit, List.cons_append], hnot, ?_⟩
            simp only [nzLen, if_neg hd]
            omega
        | none =>
            have hdkv : d = k ∧ c = v := by
              by_cases hdk : d = k
              · refine ⟨hdk, ?_⟩
                rw [hdk] at h hd
                simp [lastAssign, hd, hl] at h
                exact h
              · simp [lastAssign, hd, hl, hdk] at h
            obtain ⟨hdk, hcv⟩ := hdkv
            have hknotr : k ∉ rest := by
              rcases lastAssign_none_cases k rest (c + 1) hl with hk | hk
              · exact absurd (hdk.trans hk) hd
              · exact hk
            refine ⟨hdk ▸ hd, [], rest, by simp [hdk], hknotr, ?_⟩
            simp [nzLen]
            omega

theorem mem_last_split (s : String) :
    ∀ {l : List String}, s ∈ l → ∃ t r, l = t ++ s :: r ∧ s ∉ r := by
  intro l
  induction l with
  | nil => intro h; cases h
  | cons d rest ih =>
      intro h
      by_cases hs : s ∈ rest
      · obtain ⟨t, r, hsplit, hnot⟩ := ih hs
        exact ⟨d :: t, r, by rw [hsplit, List.cons_append], hnot⟩
      · rcases List.mem_cons.mp h with h' | h'
        · exact ⟨[], rest, by simp [h'], hs⟩
        · exact absurd h' hs

theorem split_unique {p₁ p₂ q₁ q₂ : List String} {a b : String}
    (h : p₁ ++ a :: q₁ = p₂ ++ b :: q₂) (ha : a ≠ "") (hb : b ≠ "")
    (hn : nzLen p₁ = nzLen p₂) : p₁ = p₂ ∧ a = b ∧ q₁ = q₂ := by
  rcases List.append_eq_append_iff.mp h with ⟨t, h1, h2⟩ | ⟨t, h1, h2⟩
  · cases t with
    | nil =>
        simp only [List.append_nil] at h1
        simp only [List.nil_append] at h2
        exact ⟨h1.symm, (List.cons.inj h2).1, (List.cons.inj h2).2⟩
    | cons x t' =>
        rw [List.cons_append] at h2
        have hax : a = x := (List.cons.inj h2).1
        have hx : x ≠ "" := hax ▸ ha
        have hxt : nzLen (x :: t') = nzLen t' + 1 := by rw [nzLen, if_neg hx]
        rw [h1, nzLen_append, hxt] at hn
        exact absurd hn (by omega)
  · cases t with
    | nil =>
        simp only [List.append_nil] at h1
        simp only [List.nil_append] at h2
        exact ⟨h1, (List.cons.inj h2).1.symm, (List.cons.inj h2).2.symm⟩
    | cons x t' =>
        rw [List.cons_append] at h2
        have hbx : b = x := (List.cons.inj h2).1
        have hx : x ≠ "" := hbx ▸ hb
        have hxt : nzLen (x :: t') = nzLen t' + 1 := by rw [nzLen, if_neg hx]
        rw [h1, nzLen_append, hxt] at hn
        exact absurd hn (by omega)

theorem childAssets_mem_split (fs : FS) (s : String) (hne : s ≠ "") :
    ∀ (t q : List String) (c : Nat),
      (∀ d ∈ t ++ s :: q, d ≠ "" → ∃ e, mapGet fs (resolveDep d) = some e) →
      ∃ x ∈ childAssets fs (t ++ s :: q) c,
        x.id = c + nzLen t ∧ x.filePath = resolveDep s := by
  intro t
  induction t with
  | nil =>
      intro q c hp
      obtain ⟨e, he⟩ := hp s (by simp) hne
      rw [List.nil_append, childAssets, if_neg hne, he]
      refine ⟨_, List.mem_cons_self _ _, ?_, rfl⟩
      simp [nzLen]
  | cons d t ih =>
      intro q c hp
      have hp' : ∀ d' ∈ t ++ s :: q, d' ≠ "" →
          ∃ e, mapGet fs (resolveDep d') = some e :=
        fun d' hd' => hp d' (List.mem_cons_of_mem _ hd')
      by_cases hd : d = ""
      · rw [List.cons_append, childAssets, if_pos hd]
        obtain ⟨x, hx, hid, hfp⟩ := ih q c hp'
        exact ⟨x, hx, by simpa [nzLen, hd] using hid, hfp⟩
      · obtain ⟨e, he⟩ := hp d (by simp) hd
        rw [List.cons_append, childAssets, if_neg hd, he]
        obtain ⟨x, hx, hid, hfp⟩ := ih q (c + 1) hp'
        refine ⟨x, List.mem_cons_of_mem _ hx, ?_, hfp⟩
        rw [hid, nzLen, if_neg hd]
        omega

/-- **C10** (as amended).  If the *entry* asset's deps contain the same
non-empty specifier `s` more than once (an occurrence after position
`p ++ s :: q` with `s ∈ q`), then a distinct child asset is created for
each occurrence (children are in one-to-one order- and
multiplicity-preserving correspondence with the non-empty specifiers,
with fresh consecutive ids), the earlier occurrence's child — with id
`1 + nzLen p` — stays in the graph, but the entry's mapping keeps only
the id of the *last* occurrence's child (a strictly larger id), and no
mapping entry at all references the earlier child's id.  Deps of
non-entry assets are never processed, because the loop bound is captured
before any push. -/
theorem c10_last_mapping_wins (fs : FS) (entry : String) (g : List Asset)
    (cf : Nat) (f : SrcFile) (s : String) (p q : List String)
    (h : createGraph fs entry 0 = .ok (g, cf))
    (hf : mapGet fs entry = some f)
    (hsplit : f.imports = p ++ s :: q)
    (hlater : s ∈ q) (hne : s ≠ "") :
    ∃ a ch, g = a :: ch ∧
      ch.map (fun x => x.filePath) = resolvedDeps f.imports ∧
      ch.map (fun x => x.id) = idRange 1 (nzLen f.imports) ∧
      (∃ x ∈ ch, x.id = 1 + nzLen p ∧ x.filePath = resolveDep s) ∧
      (∃ t r, f.imports = t ++ s :: r ∧ s ∉ r ∧
        mapGet a.mapping s = some (1 + nzLen t) ∧ nzLen p < nzLen t) ∧
      (∀ k, mapGet a.mapping k ≠ some (1 + nzLen p)) := by
  obtain ⟨f', m', hf', hg, hcf, hp, hm⟩ := createGraph_ok_spec h
  rw [hf] at hf'
  obtain rfl : f = f' := Option.some.inj hf'
  refine ⟨_, _, hg, ?_, ?_, ?_, ?_, ?_⟩
  · exact childAssets_map_filePath _ _ hp
  · simpa using childAssets_map_id _ _ hp
  · have hx := childAssets_mem_split fs s hne p q (0 + 1)
      (by rw [← hsplit]; exact hp)
    rw [← hsplit] at hx
    obtain ⟨x, hxmem, hxid, hxfp⟩ := hx
    exact ⟨x, hxmem, by omega, hxfp⟩
  · obtain ⟨t₀, r₀, hq, hnot⟩ := mem_last_split s hlater
    have hsplit2 : f.imports = (p ++ s :: t₀) ++ s :: r₀ := by
      rw [hsplit, hq]
      simp [List.append_assoc]
    have hla : lastAssign s f.imports (0 + 1) =
        some ((0 + 1) + nzLen (p ++ s :: t₀)) := by
      rw [hsplit2]
      exact lastAssign_last s hne (p ++ s :: t₀) r₀ (0 + 1) hnot
    have hms := hm s
    rw [hla] at hms
    refine ⟨p ++ s :: t₀, r₀, hsplit2, hnot, by simpa using hms, ?_⟩
    have h1 : nzLen (s :: t₀) = nzLen t₀ + 1 := by rw [nzLen, if_neg hne]
    rw [nzLen_append, h1]
    omega
  · intro k hk
    have h2 : mapGet m' k = some (1 + nzLen p) := hk
    have hmk := hm k
    cases hla : lastAssign k f.imports (0 + 1) with
    | none => simp [hla, h2] at hmk
    | some v =>
        simp [hla, h2] at hmk
        obtain ⟨hkne, t, r, hsp, hnotr, hv⟩ :=
          lastAssign_some_split k f.imports (0 + 1) v hla
        have hnz : nzLen t = nzLen p := by omega
        obtain ⟨-, hks, hrq⟩ :=
          split_unique (hsp.symm.trans hsplit) hkne hne hnz
        apply hnotr
        rw [hks, hrq]
        exact hlater

/-- Witness for `c10_last_mapping_wins`: the entry of `repFS` imports
`./b.js` twice. -/
theorem c10_witness :
    ∃ a ch, repGraph = a :: ch ∧
      ch.map (fun x => x.filePath) = resolvedDeps ["./b.js", "./b.js"] ∧
      ch.map (fun x => x.id) = idRange 1 (nzLen ["./b.js", "./b.js"]) ∧
      (∃ x ∈ ch, x.id = 1 + nzLen ([] : List String) ∧
        x.filePath = resolveDep "./b.js") ∧
      (∃ t r, ["./b.js", "./b.js"] = t ++ "./b.js" :: r ∧ "./b.js" ∉ r ∧
        mapGet a.mapping "./b.js" = some (1 + nzLen t) ∧
        nzLen ([] : List String) < nzLen t) ∧
      (∀ k, mapGet a.mapping k ≠ some (1 + nzLen ([] : List String))) :=
  c10_last_mapping_wins repFS "a.js" repGraph 3
    { source := "", imports := ["./b.js", "./b.js"] } "./b.js" [] ["./b.js"]
    (by rfl) (by rfl) rfl (by decide) (by decide)

end MiniWebpack
